import Mathlib

/-!
Verification development for the FDC_Scheduler conflict detection and
resolution engine.  The repository ships only the Python example and test
surface of the engine (`example.py`, `test_bindings.py`, `test_simple.py`);
the engine itself (network model, pathfinder, conflict detector, resolver)
is absent from the sources, so every engine operation below is modelled
from the specification and marked as such in its doc comment.

Modelling conventions: instants and durations are integers (seconds);
distances and speeds are integers (the program only ever holds integral
values for them); fractional quantities (severity, weights, quality
scores) are rationals.  Fallible construction operations return `Except`.
-/

set_option maxHeartbeats 1000000

namespace FDC

/-! ## Lexicographic order on integer key lists

The detector and the resolver must produce deterministically ordered
output.  All ordering keys (resource keys, interval keys, conflict keys)
are encoded as `List Int` and compared lexicographically. -/

/-- Lexicographic less-or-equal on integer lists: the empty list is the
least element, otherwise compare heads and recurse on ties. -/
def keyLe : List Int → List Int → Bool
  | [], _ => true
  | _ :: _, [] => false
  | a :: as, b :: bs => if a < b then true else if b < a then false else keyLe as bs

theorem keyLe_refl (as : List Int) : keyLe as as = true := by
  induction as with
  | nil => rfl
  | cons a as ih => simp [keyLe, ih]

theorem keyLe_cons_iff {a b : Int} {as bs : List Int} :
    keyLe (a :: as) (b :: bs) = true ↔ a < b ∨ (a = b ∧ keyLe as bs = true) := by
  simp only [keyLe]
  split_ifs with h1 h2
  · simp [h1]
  · constructor
    · intro h; simp at h
    · rintro (h | ⟨h, _⟩) <;> omega
  · have hab : a = b := by omega
    simp [hab]

theorem keyLe_total (as bs : List Int) : keyLe as bs = true ∨ keyLe bs as = true := by
  induction as generalizing bs with
  | nil => left; rfl
  | cons a as ih =>
    cases bs with
    | nil => right; rfl
    | cons b bs =>
      rw [keyLe_cons_iff, keyLe_cons_iff]
      rcases lt_trichotomy a b with h | h | h
      · exact Or.inl (Or.inl h)
      · rcases ih bs with hr | hr
        · exact Or.inl (Or.inr ⟨h, hr⟩)
        · exact Or.inr (Or.inr ⟨h.symm, hr⟩)
      · exact Or.inr (Or.inl h)

theorem keyLe_trans : ∀ as bs cs : List Int, keyLe as bs = true →
    keyLe bs cs = true → keyLe as cs = true := by
  intro as
  induction as with
  | nil => intro bs cs _ _; rfl
  | cons a as ih =>
    intro bs cs h1 h2
    cases bs with
    | nil => simp [keyLe] at h1
    | cons b bs =>
      cases cs with
      | nil => simp [keyLe] at h2
      | cons c cs =>
        rw [keyLe_cons_iff] at h1 h2 ⊢
        rcases h1 with h1 | ⟨h1e, h1r⟩
        · rcases h2 with h2 | ⟨h2e, _⟩
          · exact Or.inl (lt_trans h1 h2)
          · exact Or.inl (h2e ▸ h1)
        · rcases h2 with h2 | ⟨h2e, h2r⟩
          · exact Or.inl (h1e ▸ h2)
          · exact Or.inr ⟨h1e.trans h2e, ih _ _ h1r h2r⟩

theorem keyLe_antisymm : ∀ as bs : List Int, keyLe as bs = true →
    keyLe bs as = true → as = bs := by
  intro as
  induction as with
  | nil =>
    intro bs h1 h2
    cases bs with
    | nil => rfl
    | cons b bs => simp [keyLe] at h2
  | cons a as ih =>
    intro bs h1 h2
    cases bs with
    | nil => simp [keyLe] at h1
    | cons b bs =>
      rw [keyLe_cons_iff] at h1 h2
      rcases h1 with h1 | ⟨h1e, h1r⟩
      · rcases h2 with h2 | ⟨h2e, _⟩
        · exact absurd h2 (lt_asymm h1)
        · exact absurd h1 (by omega)
      · rcases h2 with h2 | ⟨h2e, h2r⟩
        · exact absurd h2 (by omega)
        · rw [h1e, ih bs h1r h2r]

/-! ## Injective integer-list encodings of identifiers

String identifiers are encoded as length-prefixed character-code lists so
that concatenated encodings remain injective and lexicographically
comparable. -/

/-- Length-prefixed encoding of a string as an integer list. -/
def encStr (s : String) : List Int :=
  (s.data.length : Int) :: s.data.map (fun c => (c.toNat : Int))

theorem char_code_injective : Function.Injective (fun c : Char => (c.toNat : Int)) := by
  intro a b h
  have hn : (a.toNat : Int) = (b.toNat : Int) := h
  have hn' : a.toNat = b.toNat := by exact_mod_cast hn
  refine Char.ext (UInt32.ext ?_)
  simpa [Char.toNat, UInt32.toNat] using hn'

theorem string_data_inj {a b : String} (h : a.data = b.data) : a = b := by
  cases a; cases b; exact congrArg String.mk h

theorem encStr_append_inj {a b : String} {r1 r2 : List Int}
    (h : encStr a ++ r1 = encStr b ++ r2) : a = b ∧ r1 = r2 := by
  simp only [encStr, List.cons_append] at h
  have hlen : (a.data.length : Int) = (b.data.length : Int) := (List.cons.inj h).1
  have htail := (List.cons.inj h).2
  have hlen' : a.data.length = b.data.length := by exact_mod_cast hlen
  have hmaps := List.append_inj htail (by simpa using hlen')
  have hdata : a.data = b.data :=
    (List.map_injective_iff.mpr char_code_injective) hmaps.1
  exact ⟨string_data_inj hdata, hmaps.2⟩

theorem encStr_inj {a b : String} (h : encStr a = encStr b) : a = b := by
  have h2 : encStr a ++ ([] : List Int) = encStr b ++ ([] : List Int) := by simpa using h
  exact (encStr_append_inj h2).1

/-! ## Network model

Modelled from the spec: the Network Model of §3/§4.1 — a directed weighted
graph of infrastructure nodes and track-section edges — is part of the
engine that is absent from the shipped sources.  Nodes carry an
identifier, a display name, a category and a platform count; edges are
directed, keyed by ordered endpoint pair.  Construction failures follow
§7: duplicate nodes, unknown endpoints and duplicate directed edges are
rejected at the mutating call.  §3 additionally forbids self-loop edges;
§7 names no error kind for them, so they are rejected as `selfLoop`. -/

inductive NodeType
  | station
  | junction
  | depot
deriving DecidableEq

inductive TrackType
  | single
  | double
  | highSpeed
deriving DecidableEq

structure Node where
  id : String
  name : String
  ntype : NodeType
  platforms : Nat := 0
deriving DecidableEq

structure Edge where
  src : String
  dst : String
  length : Int
  track : TrackType
  max_speed : Int := 0
deriving DecidableEq

structure RailwayNetwork where
  nodes : List Node := []
  edges : List Edge := []
deriving DecidableEq

inductive NetworkError
  | duplicateNode
  | unknownEndpoint
  | duplicateEdge
  | selfLoop
deriving DecidableEq

/-- Modelled from the spec: §4.1 `has_node`. -/
def has_node (net : RailwayNetwork) (id : String) : Bool :=
  net.nodes.any (fun m => m.id = id)

/-- Modelled from the spec: §4.1 `has_edge` on an ordered endpoint pair. -/
def has_edge (net : RailwayNetwork) (a b : String) : Bool :=
  net.edges.any (fun e => e.src = a && e.dst = b)

/-- Modelled from the spec: §4.1 `add_node`, failing with
`DuplicateNodeError` when the identifier already exists and otherwise
appending the node in insertion order. -/
def add_node (net : RailwayNetwork) (n : Node) : Except NetworkError RailwayNetwork :=
  if has_node net n.id then .error .duplicateNode
  else .ok { net with nodes := net.nodes ++ [n] }

/-- Modelled from the spec: §4.1 `add_edge`, failing with
`UnknownEndpointError` when either endpoint is absent, rejecting
self-loops (§3 invariant), failing with `DuplicateEdgeError` when the
identical directed pair already exists, and otherwise appending exactly
one directed edge in insertion order. -/
def add_edge (net : RailwayNetwork) (e : Edge) : Except NetworkError RailwayNetwork :=
  if has_node net e.src = false || has_node net e.dst = false then .error .unknownEndpoint
  else if e.src = e.dst then .error .selfLoop
  else if has_edge net e.src e.dst then .error .duplicateEdge
  else .ok { net with edges := net.edges ++ [e] }

/-- Modelled from the spec: §4.1 node count accessor (`num_nodes` /
`get_node_count` in the binding surface). -/
def num_nodes (net : RailwayNetwork) : Nat := net.nodes.length

/-- Modelled from the spec: §4.1 edge count accessor (`num_edges` /
`get_edge_count` in the binding surface). -/
def num_edges (net : RailwayNetwork) : Nat := net.edges.length

/-- Modelled from the spec: §4.1 `neighbors`, the outgoing edges of a node. -/
def neighbors (net : RailwayNetwork) (id : String) : List Edge :=
  net.edges.filter (fun e => e.src = id)

/-! ## Claims C8 and C3: network construction -/

/-- C8: `add_node` fails with `DuplicateNodeError` when a node with the
same identifier already exists, the rejection happens at that mutating
call, and no modified network is ever produced by the failed call — the
duplicate is never accepted into the network. -/
theorem add_node_duplicate_rejected (net : RailwayNetwork) (n : Node)
    (h : has_node net n.id = true) :
    add_node net n = .error NetworkError.duplicateNode ∧
      ∀ net2 : RailwayNetwork, add_node net n ≠ .ok net2 := by
  constructor
  · simp [add_node, h]
  · intro net2
    simp [add_node, h]

def wNode8 : Node := { id := "MILANO", name := "Milano Centrale", ntype := .station }

def wNet8 : RailwayNetwork := { nodes := [wNode8], edges := [] }

/-- Witness for C8: adding a second node with identifier `MILANO` to a
network that already contains one is rejected. -/
theorem add_node_duplicate_rejected_witness :
    has_node wNet8 "MILANO" = true ∧
      (add_node wNet8 { id := "MILANO", name := "Duplicate", ntype := .station }
          = .error NetworkError.duplicateNode ∧
        ∀ net2 : RailwayNetwork,
          add_node wNet8 { id := "MILANO", name := "Duplicate", ntype := .station }
            ≠ .ok net2) :=
  ⟨by decide,
    add_node_duplicate_rejected wNet8
      { id := "MILANO", name := "Duplicate", ntype := .station } (by decide)⟩

/-- C3: each successful `add_edge` call inserts exactly one directed edge
(the edge count increases by one), the inserted direction becomes
addressable, and the opposite direction is untouched — bidirectional
physical track therefore requires two `add_edge` calls, one per
direction. -/
theorem add_edge_single_directed (net net2 : RailwayNetwork) (e : Edge)
    (h : add_edge net e = .ok net2) :
    num_edges net2 = num_edges net + 1 ∧
      has_edge net2 e.src e.dst = true ∧
      has_edge net2 e.dst e.src = has_edge net e.dst e.src := by
  unfold add_edge at h
  split at h
  · exact absurd h (by simp)
  · split at h
    · exact absurd h (by simp)
    · split at h
      · exact absurd h (by simp)
      · rename_i hend hloop hdup
        have hnet2 : net2 = { net with edges := net.edges ++ [e] } := by
          cases h; rfl
        subst hnet2
        refine ⟨by simp [num_edges], ?_, ?_⟩
        · simp [has_edge]
        · have hne : ¬ (e.src = e.dst) := hloop
          simp only [has_edge, List.any_append, List.any_cons, List.any_nil]
          have : (e.src = e.dst && e.dst = e.src) = false := by
            cases hsd : decide (e.src = e.dst) with
            | true => exact absurd (of_decide_eq_true hsd) hne
            | false => simp [hsd]
          simp [this]

def wNet3 : RailwayNetwork :=
  { nodes := [{ id := "MILANO", name := "Milano Centrale", ntype := .station },
              { id := "ROMA", name := "Roma Termini", ntype := .station }],
    edges := [] }

def wEdge3 : Edge := { src := "MILANO", dst := "ROMA", length := 480, track := .highSpeed }

/-- Witness for C3: adding the directed edge `MILANO → ROMA` to a
two-node network adds exactly one edge and does not create the reverse
direction. -/
theorem add_edge_single_directed_witness :
    num_edges { wNet3 with edges := wNet3.edges ++ [wEdge3] } = num_edges wNet3 + 1 ∧
      has_edge { wNet3 with edges := wNet3.edges ++ [wEdge3] } wEdge3.src wEdge3.dst = true ∧
      has_edge { wNet3 with edges := wNet3.edges ++ [wEdge3] } wEdge3.dst wEdge3.src
        = has_edge wNet3 wEdge3.dst wEdge3.src :=
  add_edge_single_directed wNet3 { wNet3 with edges := wNet3.edges ++ [wEdge3] } wEdge3 (by rfl)

/-! ## Timetable model

Modelled from the spec: §3 Schedule Stop and Train Schedule.  Instants are
integer seconds; a stop carries a node identifier, arrival and departure
instants, an optional platform assignment and a flag marking a true
station call versus a pass-through. -/

structure ScheduleStop where
  node : String
  arrival : Int
  departure : Int
  platform : Option Nat := none
  station_call : Bool := true
deriving DecidableEq

structure TrainSchedule where
  train_id : String
  stops : List ScheduleStop := []
deriving DecidableEq

/-! ## Resources and occupancy intervals

Modelled from the spec: §4.3 — every train schedule yields one occupancy
interval per traversed edge (from a stop's departure to the next stop's
arrival) and one per station-call platform occupancy (arrival to
departure); pass-through stops yield no platform occupancy.  A resource is
an edge identity or a (node, platform) pair. -/

inductive Resource
  | sect (src dst : String)
  | platformAt (node : String) (plat : Option Nat)
deriving DecidableEq

def encOptNat : Option Nat → Int
  | none => 0
  | some k => (k : Int) + 1

theorem encOptNat_inj {p q : Option Nat} (h : encOptNat p = encOptNat q) : p = q := by
  cases p <;> cases q <;> simp [encOptNat] at h ⊢ <;> omega

/-- Injective integer-list key of a resource. -/
def encRes : Resource → List Int
  | .sect a b => 0 :: (encStr a ++ encStr b)
  | .platformAt n p => 1 :: (encStr n ++ [encOptNat p])

theorem encRes_append_inj {x y : Resource} {r1 r2 : List Int}
    (h : encRes x ++ r1 = encRes y ++ r2) : x = y ∧ r1 = r2 := by
  cases x with
  | sect a b =>
    cases y with
    | sect c d =>
      simp only [encRes, List.cons_append, List.append_assoc] at h
      have ht := (List.cons.inj h).2
      obtain ⟨hac, ht2⟩ := encStr_append_inj ht
      obtain ⟨hbd, hr⟩ := encStr_append_inj ht2
      exact ⟨by rw [hac, hbd], hr⟩
    | platformAt n p =>
      simp only [encRes, List.cons_append] at h
      have h0 : (0 : Int) = 1 := (List.cons.inj h).1
      omega
  | platformAt n p =>
    cases y with
    | sect c d =>
      simp only [encRes, List.cons_append] at h
      have h0 : (1 : Int) = 0 := (List.cons.inj h).1
      omega
    | platformAt m q =>
      simp only [encRes, List.cons_append, List.append_assoc] at h
      have ht := (List.cons.inj h).2
      obtain ⟨hnm, ht2⟩ := encStr_append_inj ht
      simp only [List.cons_append, List.nil_append] at ht2
      have hpq := (List.cons.inj ht2).1
      exact ⟨by rw [hnm, encOptNat_inj hpq], (List.cons.inj ht2).2⟩

theorem encRes_inj {x y : Resource} (h : encRes x = encRes y) : x = y := by
  have h2 : encRes x ++ ([] : List Int) = encRes y ++ ([] : List Int) := by simpa using h
  exact (encRes_append_inj h2).1

/-- One train's occupancy of one resource over a closed time interval,
before buffer expansion.  The interval is expanded by the buffer on both
ends at comparison time. -/
structure OccInterval where
  res : Resource
  start : Int
  finish : Int
  train_id : String
  stop_idx : Nat
deriving DecidableEq

/-- Injective integer-list sort key of an interval: start instant first
(the spec sorts each resource group by start time), then finish, then the
owning train and stop index as deterministic tie-breaks. -/
def encIv (iv : OccInterval) : List Int :=
  iv.start :: iv.finish :: (iv.stop_idx : Int) :: (encStr iv.train_id ++ encRes iv.res)

theorem encIv_inj {x y : OccInterval} (h : encIv x = encIv y) : x = y := by
  simp only [encIv] at h
  have h1 := (List.cons.inj h).1
  have h2 := (List.cons.inj (List.cons.inj h).2).1
  have hrest := (List.cons.inj (List.cons.inj h).2).2
  have h3 : (x.stop_idx : Int) = y.stop_idx := (List.cons.inj hrest).1
  have h3' : x.stop_idx = y.stop_idx := by exact_mod_cast h3
  obtain ⟨h4, h5⟩ := encStr_append_inj (List.cons.inj hrest).2
  have h6 := encRes_inj h5
  cases x; cases y
  simp_all

/-- Sort order on intervals within a resource group. -/
def ivLE (x y : OccInterval) : Prop := keyLe (encIv x) (encIv y) = true

instance : DecidableRel ivLE :=
  fun x y => inferInstanceAs (Decidable (keyLe (encIv x) (encIv y) = true))

instance : IsTotal OccInterval ivLE := ⟨fun x y => keyLe_total _ _⟩

instance : IsTrans OccInterval ivLE := ⟨fun _ _ _ => keyLe_trans _ _ _⟩

instance : IsAntisymm OccInterval ivLE :=
  ⟨fun _ _ h1 h2 => encIv_inj (keyLe_antisymm _ _ h1 h2)⟩

/-- Modelled from the spec: platform occupancy intervals of one train,
one per true station call, `[arrival, departure]` at the stop's
(node, platform) resource. -/
def platformIntervals (t : TrainSchedule) : List OccInterval :=
  (t.stops.enum.filter (fun p => p.2.station_call)).map
    (fun p => { res := .platformAt p.2.node p.2.platform, start := p.2.arrival,
                finish := p.2.departure, train_id := t.train_id, stop_idx := p.1 })

/-- Modelled from the spec: edge occupancy intervals of one train, one per
consecutive stop pair, `[departure of stop i, arrival of stop i+1]` at the
directed edge between their nodes. -/
def sectionIntervals (t : TrainSchedule) : List OccInterval :=
  (t.stops.zip t.stops.tail).enum.map
    (fun p => { res := .sect p.2.1.node p.2.2.node, start := p.2.1.departure,
                finish := p.2.2.arrival, train_id := t.train_id, stop_idx := p.1 })

def trainIntervals (t : TrainSchedule) : List OccInterval :=
  sectionIntervals t ++ platformIntervals t

def allIntervals (schedules : List TrainSchedule) : List OccInterval :=
  schedules.flatMap trainIntervals

/-! ## Conflicts and the detector -/

inductive ConflictType
  | sectionOverlap
  | platformConflict
  | headwayViolation
deriving DecidableEq

def ctypeIdx : ConflictType → Int
  | .sectionOverlap => 0
  | .platformConflict => 1
  | .headwayViolation => 2

theorem ctypeIdx_inj {a b : ConflictType} (h : ctypeIdx a = ctypeIdx b) : a = b := by
  cases a <;> cases b <;> simp [ctypeIdx] at h ⊢

/-- Modelled from the spec: §3 Conflict — type, shared location, the two
train identifiers, a severity in [0,1] and a human-readable
description. -/
structure Conflict where
  ctype : ConflictType
  location : Resource
  train1_id : String
  train2_id : String
  severity : ℚ
  description : String
deriving DecidableEq

/-- Key of the claim-level ordering: resource key first, then the
canonical train pair. -/
def confKey3 (c : Conflict) : List Int :=
  encRes c.location ++ encStr c.train1_id ++ encStr c.train2_id

theorem confKey3_append_inj {x y : Conflict} {r1 r2 : List Int}
    (h : confKey3 x ++ r1 = confKey3 y ++ r2) :
    x.location = y.location ∧ x.train1_id = y.train1_id ∧
      x.train2_id = y.train2_id ∧ r1 = r2 := by
  simp only [confKey3, List.append_assoc] at h
  obtain ⟨hloc, h2⟩ := encRes_append_inj h
  obtain ⟨ht1, h3⟩ := encStr_append_inj h2
  obtain ⟨ht2, h4⟩ := encStr_append_inj h3
  exact ⟨hloc, ht1, ht2, h4⟩

/-- Full injective sort key of a conflict: the claim-level key extended
with type, severity and description as deterministic tie-breaks. -/
def encConf (c : Conflict) : List Int :=
  confKey3 c ++ (ctypeIdx c.ctype :: c.severity.num :: (c.severity.den : Int)
    :: encStr c.description)

theorem encConf_inj {x y : Conflict} (h : encConf x = encConf y) : x = y := by
  simp only [encConf] at h
  obtain ⟨hloc, ht1, ht2, hrest⟩ := confKey3_append_inj h
  have hct := ctypeIdx_inj (List.cons.inj hrest).1
  have hrest2 := (List.cons.inj hrest).2
  have hnum := (List.cons.inj hrest2).1
  have hrest3 := (List.cons.inj hrest2).2
  have hden : (x.severity.den : Int) = y.severity.den := (List.cons.inj hrest3).1
  have hden' : x.severity.den = y.severity.den := by exact_mod_cast hden
  have hsev : x.severity = y.severity := Rat.ext hnum hden'
  have hdesc := encStr_inj (List.cons.inj hrest3).2
  cases x; cases y
  simp_all

/-- Output sort order of the detector. -/
def confLE (x y : Conflict) : Prop := keyLe (encConf x) (encConf y) = true

instance : DecidableRel confLE :=
  fun x y => inferInstanceAs (Decidable (keyLe (encConf x) (encConf y) = true))

instance : IsTotal Conflict confLE := ⟨fun _ _ => keyLe_total _ _⟩

instance : IsTrans Conflict confLE := ⟨fun _ _ _ => keyLe_trans _ _ _⟩

instance : IsAntisymm Conflict confLE :=
  ⟨fun _ _ h1 h2 => encConf_inj (keyLe_antisymm _ _ h1 h2)⟩

/-- The ordering the spec requires of the detector's output: by resource
key, then by train-pair identifier. -/
def conflictOrder (x y : Conflict) : Prop := keyLe (confKey3 x) (confKey3 y) = true

theorem keyLe_append_cancel : ∀ (p q a b : List Int),
    (∀ r, p ++ r = q → r = []) → (∀ r, q ++ r = p → r = []) →
    keyLe (p ++ a) (q ++ b) = true → keyLe p q = true := by
  intro p
  induction p with
  | nil => intro q a b _ _ _; rfl
  | cons x p ih =>
    intro q a b hpq hqp h
    cases q with
    | nil => exact absurd (hqp (x :: p) rfl) (by simp)
    | cons y q =>
      simp only [List.cons_append] at h
      rw [keyLe_cons_iff] at h ⊢
      rcases h with h | ⟨he, hr⟩
      · exact Or.inl h
      · refine Or.inr ⟨he, ih q a b ?_ ?_ hr⟩
        · intro r hrr
          exact hpq r (by simp [List.cons_append, hrr, he])
        · intro r hrr
          exact hqp r (by simp [List.cons_append, hrr, ← he])

theorem confLE_imp_conflictOrder {x y : Conflict} (h : confLE x y) : conflictOrder x y := by
  refine keyLe_append_cancel (confKey3 x) (confKey3 y) _ _ ?_ ?_ h
  · intro r hrr
    have hrr2 : confKey3 x ++ r = confKey3 y ++ ([] : List Int) := by simpa using hrr
    exact (confKey3_append_inj hrr2).2.2.2
  · intro r hrr
    have hrr2 : confKey3 y ++ r = confKey3 x ++ ([] : List Int) := by simpa using hrr
    exact (confKey3_append_inj hrr2).2.2.2

/-- Canonical string order used to canonicalize train pairs. -/
def strLe (a b : String) : Bool := keyLe (encStr a) (encStr b)

/-- Modelled from the spec: §4.3 severity — fraction of overlap of the two
buffer-expanded intervals relative to the shorter of them, clamped to
[0,1]; a degenerate (empty) shorter interval scores a full 1. -/
def severityOf (buffer : Int) (x y : OccInterval) : ℚ :=
  let ov : Int := min (x.finish + buffer) (y.finish + buffer)
    - max (x.start - buffer) (y.start - buffer)
  let shorter : Int := min (x.finish - x.start + 2 * buffer) (y.finish - y.start + 2 * buffer)
  if shorter ≤ 0 then 1 else min 1 (max 0 ((ov : ℚ) / (shorter : ℚ)))

/-- Conflict kind determined by the contested resource. -/
def pairKind : Resource → ConflictType
  | .sect _ _ => .sectionOverlap
  | .platformAt _ _ => .platformConflict

/-- Modelled from the spec: build the canonicalized conflict for two
overlapping intervals on the same resource — the train pair is ordered
canonically, independent of input order (§8 symmetry). -/
def mkConflict (buffer : Int) (x y : OccInterval) : Conflict :=
  let t1 := if strLe x.train_id y.train_id then x.train_id else y.train_id
  let t2 := if strLe x.train_id y.train_id then y.train_id else x.train_id
  { ctype := pairKind x.res
    location := x.res
    train1_id := t1
    train2_id := t2
    severity := severityOf buffer x y
    description := "conflict between " ++ t1 ++ " and " ++ t2 }

/-- Buffer-expanded interval overlap test: each interval is widened by the
buffer on both ends before checking intersection. -/
def overlapsB (buffer : Int) (x y : OccInterval) : Bool :=
  decide (max x.start y.start ≤ min x.finish y.finish + 2 * buffer)

/-- Modelled from the spec: §4.3 sweep — within one start-sorted resource
group, check adjacent interval pairs and report a conflict for every
overlapping pair owned by two different trains. -/
def sweep (buffer : Int) : List OccInterval → List Conflict
  | [] => []
  | [_] => []
  | x :: y :: rest =>
    (if decide (x.train_id ≠ y.train_id) && overlapsB buffer x y
      then [mkConflict buffer x y] else [])
      ++ sweep buffer (y :: rest)

/-- Start-sorted occupancy intervals of one resource. -/
def resourceGroup (ivs : List OccInterval) (r : Resource) : List OccInterval :=
  List.insertionSort ivLE (ivs.filter (fun iv => iv.res = r))

/-- Modelled from the spec: §4.3 `detect_conflicts(network, schedules,
buffer_time)` — derive all occupancy intervals, group them by resource,
sweep each start-sorted group for overlapping pairs of distinct trains,
merge by concatenation and sort the merged result deterministically
(resource key, then canonical train pair, §5).  Resources are identified
by the stop and edge identities occurring in the schedules, so the
network argument does not influence the computed set. -/
def detect_conflicts (net : RailwayNetwork) (schedules : List TrainSchedule)
    (buffer_time : Int) : List Conflict :=
  List.insertionSort confLE
    ((((allIntervals schedules).map (fun iv => iv.res)).dedup).flatMap
      (fun r => sweep buffer_time (resourceGroup (allIntervals schedules) r)))

/-! ## Detector lemmas -/

/-- Two intervals standing next to each other somewhere in a list. -/
inductive Adjacent (x y : OccInterval) : List OccInterval → Prop
  | head (rest : List OccInterval) : Adjacent x y (x :: y :: rest)
  | tail (z : OccInterval) {l : List OccInterval} : Adjacent x y l → Adjacent x y (z :: l)

theorem mem_sweep_iff (buffer : Int) : ∀ (g : List OccInterval) (c : Conflict),
    c ∈ sweep buffer g ↔ ∃ x y, Adjacent x y g ∧
      (decide (x.train_id ≠ y.train_id) && overlapsB buffer x y) = true ∧
      c = mkConflict buffer x y := by
  intro g
  induction g with
  | nil =>
    intro c
    constructor
    · intro hc; simp [sweep] at hc
    · rintro ⟨x, y, hadj, -, -⟩; cases hadj
  | cons z g ih =>
    intro c
    cases g with
    | nil =>
      constructor
      · intro hc; simp [sweep] at hc
      · rintro ⟨x, y, hadj, -, -⟩
        cases hadj with
        | tail _ h => cases h
    | cons w rest =>
      constructor
      · intro hc
        simp only [sweep, List.mem_append] at hc
        rcases hc with hc | hc
        · by_cases hg : (decide (z.train_id ≠ w.train_id) && overlapsB buffer z w) = true
          · rw [if_pos hg] at hc
            simp only [List.mem_singleton] at hc
            exact ⟨z, w, Adjacent.head rest, hg, hc⟩
          · rw [if_neg hg] at hc
            simp at hc
        · obtain ⟨x, y, hadj, hguard, hcz⟩ := (ih c).mp hc
          exact ⟨x, y, Adjacent.tail z hadj, hguard, hcz⟩
      · rintro ⟨x, y, hadj, hguard, rfl⟩
        cases hadj with
        | head rest =>
          simp only [sweep, List.mem_append]
          left
          rw [if_pos hguard]
          simp
        | tail _ hadj2 =>
          simp only [sweep, List.mem_append]
          right
          exact (ih _).mpr ⟨x, y, hadj2, hguard, rfl⟩

theorem mkConflict_canonical (buffer : Int) (x y : OccInterval)
    (hne : x.train_id ≠ y.train_id) :
    (mkConflict buffer x y).train1_id ≠ (mkConflict buffer x y).train2_id ∧
      strLe (mkConflict buffer x y).train1_id (mkConflict buffer x y).train2_id = true := by
  by_cases hle : strLe x.train_id y.train_id = true
  · constructor
    · simp only [mkConflict, if_pos hle]
      exact hne
    · simp only [mkConflict, if_pos hle]
      exact hle
  · have hyx : strLe y.train_id x.train_id = true := by
      rcases keyLe_total (encStr x.train_id) (encStr y.train_id) with h | h
      · exact absurd h hle
      · exact h
    constructor
    · simp only [mkConflict, if_neg hle]
      exact fun hcon => hne hcon.symm
    · simp only [mkConflict, if_neg hle]
      exact hyx

/-- Every conflict in the detector's output arises from a guarded sweep
step: its train pair is distinct and canonically ordered. -/
theorem mem_detect_canonical (net : RailwayNetwork) (schedules : List TrainSchedule)
    (buffer_time : Int) :
    ∀ c ∈ detect_conflicts net schedules buffer_time,
      c.train1_id ≠ c.train2_id ∧ strLe c.train1_id c.train2_id = true := by
  intro c hc
  unfold detect_conflicts at hc
  rw [(List.perm_insertionSort confLE _).mem_iff, List.mem_flatMap] at hc
  obtain ⟨r, -, hcr⟩ := hc
  rw [mem_sweep_iff] at hcr
  obtain ⟨x, y, -, hguard, rfl⟩ := hcr
  rw [Bool.and_eq_true, decide_eq_true_iff] at hguard
  exact mkConflict_canonical buffer_time x y hguard.1

theorem resourceGroup_perm_eq {ivs1 ivs2 : List OccInterval}
    (hp : ivs1.Perm ivs2) (r : Resource) :
    resourceGroup ivs1 r = resourceGroup ivs2 r :=
  List.eq_of_perm_of_sorted
    ((List.perm_insertionSort ivLE _).trans
      ((hp.filter _).trans (List.perm_insertionSort ivLE _).symm))
    (List.sorted_insertionSort ivLE _) (List.sorted_insertionSort ivLE _)

theorem detect_conflicts_sorted (net : RailwayNetwork) (schedules : List TrainSchedule)
    (buffer_time : Int) :
    List.Sorted confLE (detect_conflicts net schedules buffer_time) := by
  unfold detect_conflicts
  exact List.sorted_insertionSort confLE _

/-! ## Claims C2, C10, C5 and C9: the conflict detector -/

/-- C2: the detector is deterministic — identical inputs produce the
identical conflict list — and its output is ordered by resource key, then
by the (canonical) train-pair identifiers. -/
theorem detect_conflicts_deterministic_ordered (net : RailwayNetwork)
    (schedules : List TrainSchedule) (buffer_time : Int) :
    detect_conflicts net schedules buffer_time
        = detect_conflicts net schedules buffer_time ∧
      List.Sorted conflictOrder (detect_conflicts net schedules buffer_time) := by
  refine ⟨rfl, ?_⟩
  have hs : List.Sorted confLE (detect_conflicts net schedules buffer_time) := by
    unfold detect_conflicts
    exact List.sorted_insertionSort confLE _
  exact hs.imp (fun h => confLE_imp_conflictOrder h)

/-- C10: no conflict is ever reported between a train and itself — the
two train identifiers of every reported conflict differ. -/
theorem detect_conflicts_no_self_conflict (net : RailwayNetwork)
    (schedules : List TrainSchedule) (buffer_time : Int) :
    ∀ c ∈ detect_conflicts net schedules buffer_time,
      c.train1_id ≠ c.train2_id :=
  fun c hc => (mem_detect_canonical net schedules buffer_time c hc).1

/-- C5: detection is monotone in the buffer time — every conflict found
with the smaller buffer has a counterpart (same type, location and train
pair) among the conflicts found with the larger buffer. -/
theorem detect_conflicts_buffer_monotone (net : RailwayNetwork)
    (schedules : List TrainSchedule) (b1 b2 : Int) (hb : b1 ≤ b2) :
    ∀ c ∈ detect_conflicts net schedules b1,
      ∃ c2 ∈ detect_conflicts net schedules b2,
        c2.ctype = c.ctype ∧ c2.location = c.location ∧
          c2.train1_id = c.train1_id ∧ c2.train2_id = c.train2_id := by
  intro c hc
  unfold detect_conflicts at hc ⊢
  rw [(List.perm_insertionSort confLE _).mem_iff, List.mem_flatMap] at hc
  obtain ⟨r, hr, hcr⟩ := hc
  rw [mem_sweep_iff] at hcr
  obtain ⟨x, y, hadj, hguard, rfl⟩ := hcr
  rw [Bool.and_eq_true] at hguard
  have hov2 : overlapsB b2 x y = true := by
    have hov1 := hguard.2
    simp only [overlapsB, decide_eq_true_iff] at hov1 ⊢
    omega
  refine ⟨mkConflict b2 x y, ?_, rfl, rfl, rfl, rfl⟩
  rw [(List.perm_insertionSort confLE _).mem_iff, List.mem_flatMap]
  refine ⟨r, hr, ?_⟩
  rw [mem_sweep_iff]
  exact ⟨x, y, hadj, by rw [Bool.and_eq_true]; exact ⟨hguard.1, hov2⟩, rfl⟩

/-- C9: conflict reporting is invariant under reordering of the input
schedule collection — permuted inputs yield the very same conflict list —
and every reported pair is canonically ordered, so a conflict between
trains A and B is the same canonicalized pair regardless of input
order. -/
theorem detect_conflicts_order_invariant (net : RailwayNetwork)
    (s1 s2 : List TrainSchedule) (buffer_time : Int) (hp : s1.Perm s2) :
    detect_conflicts net s1 buffer_time = detect_conflicts net s2 buffer_time ∧
      ∀ c ∈ detect_conflicts net s1 buffer_time,
        strLe c.train1_id c.train2_id = true := by
  constructor
  · have hIv : (allIntervals s1).Perm (allIntervals s2) := hp.flatMap_right _
    have hkeys : (((allIntervals s1).map (fun iv => iv.res)).dedup).Perm
        (((allIntervals s2).map (fun iv => iv.res)).dedup) := (hIv.map _).dedup
    have hgroups : (fun r => sweep buffer_time (resourceGroup (allIntervals s1) r))
        = (fun r => sweep buffer_time (resourceGroup (allIntervals s2) r)) := by
      funext r
      rw [resourceGroup_perm_eq hIv r]
    have hperm : (detect_conflicts net s1 buffer_time).Perm
        (detect_conflicts net s2 buffer_time) := by
      unfold detect_conflicts
      refine (List.perm_insertionSort confLE _).trans
        (List.Perm.trans ?_ (List.perm_insertionSort confLE _).symm)
      rw [hgroups]
      exact hkeys.flatMap_right _
    exact List.eq_of_perm_of_sorted hperm
      (detect_conflicts_sorted net s1 buffer_time)
      (detect_conflicts_sorted net s2 buffer_time)
  · intro c hc
    exact (mem_detect_canonical net s1 buffer_time c hc).2

def wTrainA : TrainSchedule :=
  { train_id := "FR_9600",
    stops := [{ node := "Milano", arrival := 0, departure := 300 },
              { node := "Bologna", arrival := 3000, departure := 3180 }] }

def wTrainB : TrainSchedule :=
  { train_id := "FR_9602",
    stops := [{ node := "Milano", arrival := 600, departure := 900 },
              { node := "Bologna", arrival := 3300, departure := 3480 }] }

/-- Witness for C9: the two-train collection listed in either order yields
the same canonicalized conflict list. -/
theorem detect_conflicts_order_invariant_witness :
    detect_conflicts {} [wTrainA, wTrainB] 120 = detect_conflicts {} [wTrainB, wTrainA] 120 ∧
      ∀ c ∈ detect_conflicts {} [wTrainA, wTrainB] 120,
        strLe c.train1_id c.train2_id = true :=
  detect_conflicts_order_invariant {} [wTrainA, wTrainB] [wTrainB, wTrainA] 120 (by decide)

/-- Witness for C5: buffer 0 versus buffer 120 on the two-train example. -/
theorem detect_conflicts_buffer_monotone_witness :
    (0 : Int) ≤ 120 ∧
      ∀ c ∈ detect_conflicts {} [wTrainA, wTrainB] 0,
        ∃ c2 ∈ detect_conflicts {} [wTrainA, wTrainB] 120,
          c2.ctype = c.ctype ∧ c2.location = c.location ∧
            c2.train1_id = c.train1_id ∧ c2.train2_id = c.train2_id :=
  ⟨by decide, detect_conflicts_buffer_monotone {} [wTrainA, wTrainB] 0 120 (by decide)⟩

def wTrainC : TrainSchedule :=
  { train_id := "IC1",
    stops := [{ node := "Roma", arrival := 100, departure := 100, platform := some 1 }] }

def wTrainD : TrainSchedule :=
  { train_id := "IC2",
    stops := [{ node := "Roma", arrival := 100, departure := 100, platform := some 1 }] }

/-- The platform conflict the detector reports for `wTrainC`/`wTrainD`. -/
def wConflict0 : Conflict :=
  { ctype := .platformConflict, location := .platformAt "Roma" (some 1),
    train1_id := "IC1", train2_id := "IC2", severity := 1,
    description := "conflict between IC1 and IC2" }

/-- Witness for C10: a concrete reported conflict, whose two train
identifiers differ. -/
theorem detect_conflicts_no_self_conflict_witness :
    wConflict0 ∈ detect_conflicts {} [wTrainC, wTrainD] 0 ∧
      wConflict0.train1_id ≠ wConflict0.train2_id :=
  ⟨by decide,
    detect_conflicts_no_self_conflict {} [wTrainC, wTrainD] 0 wConflict0 (by decide)⟩

/-! ## Pathfinder

Modelled from the spec: §4.2 — a priority-queue Dijkstra over the
network's directed edges, weighted by edge length, with ties broken by
lower edge count and then by insertion order.  The query returns the
inclusive node sequence from source to destination, or `none` when the
destination is unreachable ("no path" is a first-class result, §7, never
an error). -/

structure PathEntry where
  node : String
  dist : Int
  path : List String
deriving DecidableEq

/-- Priority choice: strictly smaller distance wins; on equal distance a
strictly shorter path (fewer edges) wins; otherwise the incumbent is
kept, preserving insertion order. -/
def entryBetter (a b : PathEntry) : Bool :=
  decide (a.dist < b.dist) ||
    (decide (a.dist = b.dist) && decide (a.path.length < b.path.length))

def pickMin : List PathEntry → Option PathEntry
  | [] => none
  | e :: rest =>
    match pickMin rest with
    | none => some e
    | some m => if entryBetter m e then some m else some e

def updateFrontier (frontier : List PathEntry) (cand : PathEntry) : List PathEntry :=
  match frontier.find? (fun e => e.node = cand.node) with
  | none => frontier ++ [cand]
  | some old =>
    if entryBetter cand old
      then frontier.map (fun e => if e.node = cand.node then cand else e)
      else frontier

def relaxEdges (net : RailwayNetwork) (e : PathEntry) (visited : List String)
    (frontier : List PathEntry) : List PathEntry :=
  (neighbors net e.node).foldl
    (fun fr edge =>
      if visited.any (fun v => v = edge.dst) then fr
      else updateFrontier fr
        { node := edge.dst, dist := e.dist + edge.length, path := edge.dst :: e.path })
    frontier

def removeEntry (frontier : List PathEntry) (n : String) : List PathEntry :=
  frontier.filter (fun e => !(e.node = n : Bool))

def dijkstraLoop (net : RailwayNetwork) (dst : String) :
    Nat → List PathEntry → List String → Option (List String)
  | 0, _, _ => none
  | fuel + 1, frontier, visited =>
    match pickMin frontier with
    | none => none
    | some e =>
      if e.node = dst then some e.path.reverse
      else dijkstraLoop net dst fuel
        (relaxEdges net e (e.node :: visited) (removeEntry frontier e.node))
        (e.node :: visited)

/-- Modelled from the spec: §4.2 `find_shortest_path(source, destination)`
— Dijkstra from the source, one settled node per fuel unit, fuel one more
than the node count. -/
def find_shortest_path (net : RailwayNetwork) (src dst : String) : Option (List String) :=
  if has_node net src && has_node net dst then
    dijkstraLoop net dst (num_nodes net + 1) [{ node := src, dist := 0, path := [src] }] []
  else none

/-- The four-station high-speed chain built by `create_test_network` in
`example.py`: Milano–Bologna–Firenze–Roma with both directions added
explicitly, lengths 219, 105 and 277. -/
def exampleNetwork : RailwayNetwork :=
  { nodes := [{ id := "Milano", name := "Milano Centrale", ntype := .station, platforms := 24 },
              { id := "Bologna", name := "Bologna Centrale", ntype := .station, platforms := 16 },
              { id := "Firenze", name := "Firenze SMN", ntype := .station, platforms := 18 },
              { id := "Roma", name := "Roma Termini", ntype := .station, platforms := 32 }],
    edges := [{ src := "Milano", dst := "Bologna", length := 219, track := .highSpeed, max_speed := 300 },
              { src := "Bologna", dst := "Firenze", length := 105, track := .highSpeed, max_speed := 300 },
              { src := "Firenze", dst := "Roma", length := 277, track := .highSpeed, max_speed := 300 },
              { src := "Bologna", dst := "Milano", length := 219, track := .highSpeed, max_speed := 300 },
              { src := "Firenze", dst := "Bologna", length := 105, track := .highSpeed, max_speed := 300 },
              { src := "Roma", dst := "Firenze", length := 277, track := .highSpeed, max_speed := 300 }] }

/-- A two-station network with no track: Milano and Roma disconnected. -/
def disconnectedNetwork : RailwayNetwork :=
  { nodes := [{ id := "Milano", name := "Milano Centrale", ntype := .station },
              { id := "Roma", name := "Roma Termini", ntype := .station }],
    edges := [] }

/-! ## Claim C6: pathfinding -/

/-- C6: on the chained Milano–Bologna–Firenze–Roma network the shortest
path from Milano to Roma is exactly the inclusive chain
`[Milano, Bologna, Firenze, Roma]`, and on a disconnected pair the query
returns a "no path" result (`none`) rather than raising an error. -/
theorem find_shortest_path_example :
    find_shortest_path exampleNetwork "Milano" "Roma"
        = some ["Milano", "Bologna", "Firenze", "Roma"] ∧
      find_shortest_path disconnectedNetwork "Milano" "Roma" = none := by
  constructor
  · decide
  · decide

/-! ## Resolver

Modelled from the spec: §4.4 — an iterative repair loop over a working
copy of the schedules.  Each iteration re-runs the detector; on zero
conflicts it stops with success, otherwise it picks the highest-severity
conflict, generates the candidate fixes permitted by the configuration
(delay move, platform change), keeps those that respect the per-train
cumulative delay bound and actually eliminate the picked conflict,
applies the cheapest, records a note, and repeats until conflict-free,
stuck, or out of budget. -/

structure RailwayAIConfig where
  enable_delay : Bool := true
  enable_platform_change : Bool := true
  max_delay_minutes : Int := 30
  min_headway_seconds : Int := 120
  delay_weight : ℚ := 1
  platform_change_weight : ℚ := 1
deriving DecidableEq

inductive ResolveError
  | invalidConfiguration
deriving DecidableEq

/-- A timetable edit: delay a train's stops from an index onward by a
number of seconds, or reassign one stop's platform. -/
inductive Move
  | delay (tid : String) (fromIdx : Nat) (seconds : Int)
  | platformChange (tid : String) (stopIdx : Nat) (plat : Nat)
deriving DecidableEq

/-- A resolution note: either the record of one applied edit (train,
conflict type and location, move kind, magnitude, §4.4 step 5), or the
record of a conflict left unresolved and why (§4.4 termination). -/
inductive ResolutionNote
  | edit (tid : String) (ctype : ConflictType) (location : Resource)
      (viaDelay : Bool) (seconds : Int)
  | remaining (c : Conflict) (why : String)
deriving DecidableEq

/-- Modelled from the spec: §4.4 step 4 cost of one applied edit. -/
def noteCost (cfg : RailwayAIConfig) : ResolutionNote → ℚ
  | .edit _ _ _ true seconds => cfg.delay_weight * ((seconds : ℚ) / 60)
  | .edit _ _ _ false _ => cfg.platform_change_weight
  | .remaining _ _ => 0

/-- Total cost of all applied moves recorded in a note list. -/
def appliedCost (cfg : RailwayAIConfig) (notes : List ResolutionNote) : ℚ :=
  (notes.map (noteCost cfg)).sum

def moveCost (cfg : RailwayAIConfig) : Move → ℚ
  | .delay _ _ d => cfg.delay_weight * ((d : ℚ) / 60)
  | .platformChange _ _ _ => cfg.platform_change_weight

/-- Modelled from the spec: §4.4 quality score of a resolution,
`1 / (1 + total cost of all applied moves)`. -/
def qualityScore (c : ℚ) : ℚ := 1 / (1 + c)

def shiftStop (d : Int) (s : ScheduleStop) : ScheduleStop :=
  { s with arrival := s.arrival + d, departure := s.departure + d }

/-- Shift every stop from the given index onward by `d` seconds. -/
def shiftStopsFrom (d : Int) : Nat → List ScheduleStop → List ScheduleStop
  | _, [] => []
  | 0, s :: rest => shiftStop d s :: shiftStopsFrom d 0 rest
  | i + 1, s :: rest => s :: shiftStopsFrom d i rest

/-- Reassign the platform of the stop at the given index. -/
def setStopPlatform (p : Nat) : Nat → List ScheduleStop → List ScheduleStop
  | _, [] => []
  | 0, s :: rest => { s with platform := some p } :: rest
  | i + 1, s :: rest => s :: setStopPlatform p i rest

def applyMove (ws : List TrainSchedule) : Move → List TrainSchedule
  | .delay tid fromIdx d =>
    ws.map (fun t => if t.train_id = tid
      then { t with stops := shiftStopsFrom d fromIdx t.stops } else t)
  | .platformChange tid idx p =>
    ws.map (fun t => if t.train_id = tid
      then { t with stops := setStopPlatform p idx t.stops } else t)

/-- Cumulative delay (seconds) so far applied to a train. -/
def lookupDelay : List (String × Int) → String → Int
  | [], _ => 0
  | (t, x) :: rest, tid => if t = tid then x else lookupDelay rest tid

def updateDelay : List (String × Int) → String → Int → List (String × Int)
  | [], tid, d => [(tid, d)]
  | (t, x) :: rest, tid, d =>
    if t = tid then (t, x + d) :: rest else (t, x) :: updateDelay rest tid d

def moveDelays (delays : List (String × Int)) : Move → List (String × Int)
  | .delay tid _ d => updateDelay delays tid d
  | .platformChange _ _ _ => delays

def intervalsOn (ws : List TrainSchedule) (tid : String) (r : Resource) : List OccInterval :=
  match ws.find? (fun t => t.train_id = tid) with
  | none => []
  | some t => (trainIntervals t).filter (fun iv => iv.res = r)

/-- Recover a clashing pair of occupancy intervals behind a conflict on
its contested resource. -/
def findClash (buffer : Int) (xs ys : List OccInterval) :
    Option (OccInterval × OccInterval) :=
  xs.findSome? (fun x => (ys.find? (fun y => overlapsB buffer x y)).map (fun y => (x, y)))

/-- Modelled from the spec: §4.4 delay move — shift the later-occupying
train of the conflict, from the conflicting stop onward, later by the
smallest increment that clears the conflict plus `min_headway_seconds`. -/
def delayCandidate (net : RailwayNetwork) (buffer : Int) (cfg : RailwayAIConfig)
    (ws : List TrainSchedule) (c : Conflict) : Option Move :=
  if cfg.enable_delay then
    match findClash buffer (intervalsOn ws c.train1_id c.location)
        (intervalsOn ws c.train2_id c.location) with
    | none => none
    | some (x, y) =>
      let early := if decide (x.start ≤ y.start) then x else y
      let late := if decide (x.start ≤ y.start) then y else x
      let d := early.finish + 2 * buffer + cfg.min_headway_seconds - late.start
      if 0 < d then some (.delay late.train_id late.stop_idx d) else none
  else none

def nodeCapacity (net : RailwayNetwork) (id : String) : Nat :=
  match net.nodes.find? (fun n => n.id = id) with
  | none => 0
  | some n => n.platforms

/-- Modelled from the spec: §4.4 platform change — reassign the later
train's conflicting stop to another platform within the node's capacity,
leaving timing untouched. -/
def platformCandidates (net : RailwayNetwork) (buffer : Int) (cfg : RailwayAIConfig)
    (ws : List TrainSchedule) (c : Conflict) : List Move :=
  if cfg.enable_platform_change then
    match c.location with
    | .platformAt node p =>
      match findClash buffer (intervalsOn ws c.train1_id c.location)
          (intervalsOn ws c.train2_id c.location) with
      | none => []
      | some (x, y) =>
        let late := if decide (x.start ≤ y.start) then y else x
        (List.range (nodeCapacity net node)).filterMap
          (fun q => if some q = p then none
            else some (.platformChange late.train_id late.stop_idx q))
    | .sect _ _ => []
  else []

/-- Modelled from the spec: §4.4 — a delay candidate must keep the
target train's cumulative delay within `max_delay_minutes`. -/
def moveWithinBound (cfg : RailwayAIConfig) (delays : List (String × Int)) : Move → Bool
  | .delay tid _ d =>
    decide (0 < d) && decide (lookupDelay delays tid + d ≤ cfg.max_delay_minutes * 60)
  | .platformChange _ _ _ => true

def sameConflict (c c2 : Conflict) : Bool :=
  decide (c2.ctype = c.ctype) && decide (c2.location = c.location) &&
    decide (c2.train1_id = c.train1_id) && decide (c2.train2_id = c.train2_id)

/-- Modelled from the spec: §4.4 step 4 — a candidate must actually
eliminate the picked conflict once applied. -/
def eliminatesConflict (net : RailwayNetwork) (buffer : Int) (ws : List TrainSchedule)
    (c : Conflict) (m : Move) : Bool :=
  !((detect_conflicts net (applyMove ws m) buffer).any (fun c2 => sameConflict c c2))

def cheaper (cfg : RailwayAIConfig) (a b : Move) : Bool :=
  decide (moveCost cfg a < moveCost cfg b)

def pickCheapest (cfg : RailwayAIConfig) : List Move → Option Move
  | [] => none
  | m :: rest =>
    match pickCheapest cfg rest with
    | none => some m
    | some m2 => if cheaper cfg m2 m then some m2 else some m

/-- Modelled from the spec: §4.4 steps 3–4 — candidate generation,
feasibility filtering and lowest-cost selection. -/
def chooseMove (net : RailwayNetwork) (buffer : Int) (cfg : RailwayAIConfig)
    (delays : List (String × Int)) (ws : List TrainSchedule) (c : Conflict) : Option Move :=
  pickCheapest cfg
    (((delayCandidate net buffer cfg ws c).toList
        ++ platformCandidates net buffer cfg ws c).filter
      (fun m => moveWithinBound cfg delays m && eliminatesConflict net buffer ws c m))

/-- Modelled from the spec: §4.4 step 2 — the highest-severity conflict;
the detector's output is already deterministically ordered, and the first
maximal-severity conflict in that order is kept. -/
def pickConflict : Conflict → List Conflict → Conflict
  | c, [] => c
  | c, c2 :: rest =>
    if decide (c.severity < c2.severity) then pickConflict c2 rest else pickConflict c rest

def noteFor (c : Conflict) : Move → ResolutionNote
  | .delay tid _ d => .edit tid c.ctype c.location true d
  | .platformChange tid _ _ => .edit tid c.ctype c.location false 0

def remainingNotes (why : String) (cs : List Conflict) : List ResolutionNote :=
  cs.map (fun c => .remaining c why)

def hasDelayEdit (notes : List ResolutionNote) : Bool :=
  notes.any (fun n => match n with | .edit _ _ _ true _ => true | _ => false)

def hasPlatformEdit (notes : List ResolutionNote) : Bool :=
  notes.any (fun n => match n with | .edit _ _ _ false _ => true | _ => false)

/-- Modelled from the spec: §4.4 strategy identifier — which move classes
were actually used. -/
def strategyOf (notes : List ResolutionNote) : String :=
  if hasDelayEdit notes then
    (if hasPlatformEdit notes then "mixed" else "delay_only")
  else
    (if hasPlatformEdit notes then "platform_only" else "none_needed")

/-- Modelled from the spec: §3 Resolution Result — success flag, strategy
identifier, normalized quality score, modified schedules and ordered
resolution notes. -/
structure ResolutionResult where
  success : Bool
  strategy_used : String
  quality_score : ℚ
  modified_trains : List TrainSchedule
  resolution_notes : List ResolutionNote
deriving DecidableEq

/-- Working state of the repair loop. -/
structure RState where
  work : List TrainSchedule
  delays : List (String × Int)
  notes : List ResolutionNote
deriving DecidableEq

def mkResult (ok : Bool) (cfg : RailwayAIConfig) (st : RState)
    (extra : List ResolutionNote) : ResolutionResult :=
  { success := ok
    strategy_used := strategyOf st.notes
    quality_score := qualityScore (appliedCost cfg st.notes)
    modified_trains := st.work
    resolution_notes := st.notes ++ extra }

def applyState (st : RState) (c : Conflict) (m : Move) : RState :=
  { work := applyMove st.work m
    delays := moveDelays st.delays m
    notes := st.notes ++ [noteFor c m] }

/-- The target of one repair iteration: the first maximal-severity
conflict of the (already deterministically ordered) detector output; the
empty case is never reached by the loop, which only picks from a
non-empty conflict list. -/
def pickFrom (cs : List Conflict) : Conflict :=
  match cs with
  | [] =>
    { ctype := .sectionOverlap, location := .sect "" "", train1_id := "",
      train2_id := "", severity := 0, description := "" }
  | c :: rest => pickConflict c rest

/-- Modelled from the spec: §4.4 the iterative repair loop, fuelled by the
iteration budget. -/
def resolveLoop (net : RailwayNetwork) (buffer : Int) (cfg : RailwayAIConfig) :
    Nat → RState → ResolutionResult
  | 0, st =>
    mkResult false cfg st
      (remainingNotes "iteration budget exhausted" (detect_conflicts net st.work buffer))
  | fuel + 1, st =>
    if detect_conflicts net st.work buffer = [] then mkResult true cfg st []
    else
      (chooseMove net buffer cfg st.delays st.work
          (pickFrom (detect_conflicts net st.work buffer))).elim
        (mkResult false cfg st
          (remainingNotes "no permitted move clears the highest-severity conflict"
            (detect_conflicts net st.work buffer)))
        (fun m => resolveLoop net buffer cfg fuel
          (applyState st (pickFrom (detect_conflicts net st.work buffer)) m))

/-- Modelled from the spec: §4.4/§5 — the loop has an intrinsic iteration
budget; the spec does not fix its size, and the proved properties hold for
any budget. -/
def iterationBudget (conflicts : List Conflict) : Nat := 16 * (conflicts.length + 1)

/-- Modelled from the spec: §4.4 `resolve_conflicts(conflicts, schedules,
config)` — reject an invalid configuration (§7, negative
`max_delay_minutes`), then run the repair loop on a working copy,
re-detecting with the same network and buffer time each iteration. -/
def resolve_conflicts (net : RailwayNetwork) (buffer : Int) (cfg : RailwayAIConfig)
    (conflicts : List Conflict) (schedules : List TrainSchedule) :
    Except ResolveError ResolutionResult :=
  if cfg.max_delay_minutes < 0 then .error .invalidConfiguration
  else .ok (resolveLoop net buffer cfg (iterationBudget conflicts)
    { work := schedules, delays := [], notes := [] })

/-! ## Resolver lemmas -/

theorem resolveLoop_success_clean (net : RailwayNetwork) (buffer : Int)
    (cfg : RailwayAIConfig) :
    ∀ (fuel : Nat) (st : RState),
      (resolveLoop net buffer cfg fuel st).success = true →
      detect_conflicts net (resolveLoop net buffer cfg fuel st).modified_trains buffer
        = [] := by
  intro fuel
  induction fuel with
  | zero =>
    intro st h
    exact Bool.noConfusion h
  | succ fuel ih =>
    intro st h
    rw [resolveLoop] at h ⊢
    by_cases hdet : detect_conflicts net st.work buffer = []
    · rw [if_pos hdet]
      exact hdet
    · rw [if_neg hdet] at h ⊢
      cases hcm : chooseMove net buffer cfg st.delays st.work
          (pickFrom (detect_conflicts net st.work buffer)) with
      | none =>
        rw [hcm] at h
        exact Bool.noConfusion h
      | some m =>
        rw [hcm] at h
        exact ih _ h

theorem resolveLoop_quality (net : RailwayNetwork) (buffer : Int)
    (cfg : RailwayAIConfig) :
    ∀ (fuel : Nat) (st : RState),
      (resolveLoop net buffer cfg fuel st).success = true →
      (resolveLoop net buffer cfg fuel st).quality_score
        = qualityScore
            (appliedCost cfg (resolveLoop net buffer cfg fuel st).resolution_notes) := by
  intro fuel
  induction fuel with
  | zero =>
    intro st h
    exact Bool.noConfusion h
  | succ fuel ih =>
    intro st h
    rw [resolveLoop] at h ⊢
    by_cases hdet : detect_conflicts net st.work buffer = []
    · rw [if_pos hdet]
      show qualityScore (appliedCost cfg st.notes)
        = qualityScore (appliedCost cfg (st.notes ++ []))
      rw [List.append_nil]
    · rw [if_neg hdet] at h ⊢
      cases hcm : chooseMove net buffer cfg st.delays st.work
          (pickFrom (detect_conflicts net st.work buffer)) with
      | none =>
        rw [hcm] at h
        exact Bool.noConfusion h
      | some m =>
        rw [hcm] at h
        exact ih _ h

/-! ## Claims C1 and C7: the resolver's success and scoring -/

/-- C1: whenever `resolve_conflicts` returns a result with
`success = true`, re-running `detect_conflicts` on the result's modified
schedules with the same network and buffer time yields no conflicts. -/
theorem resolve_conflicts_success_clean (net : RailwayNetwork) (buffer : Int)
    (cfg : RailwayAIConfig) (conflicts : List Conflict)
    (schedules : List TrainSchedule) (r : ResolutionResult)
    (hok : resolve_conflicts net buffer cfg conflicts schedules = .ok r)
    (hs : r.success = true) :
    detect_conflicts net r.modified_trains buffer = [] := by
  unfold resolve_conflicts at hok
  split at hok
  · exact absurd hok (by simp)
  · have hr : r = resolveLoop net buffer cfg (iterationBudget conflicts)
        { work := schedules, delays := [], notes := [] } := (Except.ok.inj hok).symm
    subst hr
    exact resolveLoop_success_clean net buffer cfg _ _ hs

/-- C7: a successful result's quality score is exactly
`1 / (1 + total cost of the applied moves)`; with no applied edits (in
particular on an already conflict-free input) it is exactly 1; and the
scoring function strictly decreases as the total cost grows. -/
theorem resolve_conflicts_quality (net : RailwayNetwork) (buffer : Int)
    (cfg : RailwayAIConfig) (conflicts : List Conflict)
    (schedules : List TrainSchedule) (r : ResolutionResult)
    (hok : resolve_conflicts net buffer cfg conflicts schedules = .ok r)
    (hs : r.success = true) :
    r.quality_score = 1 / (1 + appliedCost cfg r.resolution_notes) ∧
      (appliedCost cfg r.resolution_notes = 0 → r.quality_score = 1) ∧
      (detect_conflicts net schedules buffer = [] → r.quality_score = 1) ∧
      ∀ c1 c2 : ℚ, 0 ≤ c1 → c1 < c2 → qualityScore c2 < qualityScore c1 := by
  unfold resolve_conflicts at hok
  split at hok
  · exact absurd hok (by simp)
  · have hr : r = resolveLoop net buffer cfg (iterationBudget conflicts)
        { work := schedules, delays := [], notes := [] } := (Except.ok.inj hok).symm
    refine ⟨?_, ?_, ?_, ?_⟩
    · have hq := resolveLoop_quality net buffer cfg (iterationBudget conflicts)
        { work := schedules, delays := [], notes := [] } (hr ▸ hs)
      rw [hr]
      simpa [qualityScore] using hq
    · intro hz
      have hq := resolveLoop_quality net buffer cfg (iterationBudget conflicts)
        { work := schedules, delays := [], notes := [] } (hr ▸ hs)
      rw [hr] at hz ⊢
      rw [hq, hz]
      norm_num [qualityScore]
    · intro hclean
      have hbudget : iterationBudget conflicts = (16 * conflicts.length + 15) + 1 := by
        unfold iterationBudget
        ring
      rw [hr, hbudget, resolveLoop, hclean]
      norm_num [mkResult, qualityScore, appliedCost]
    · intro c1 c2 h0 hlt
      unfold qualityScore
      have h1 : (0 : ℚ) < 1 + c1 := by linarith
      have h2 : (0 : ℚ) < 1 + c2 := by linarith
      exact div_lt_div_of_pos_left one_pos h1 (by linarith)

def wCfg : RailwayAIConfig := {}

/-- The resolver's result on a conflict-free single-train input. -/
def wResolved : ResolutionResult :=
  match resolve_conflicts exampleNetwork 120 wCfg [] [wTrainA] with
  | .ok r => r
  | .error _ =>
    { success := false, strategy_used := "", quality_score := 0,
      modified_trains := [], resolution_notes := [] }

def wTrainE : TrainSchedule :=
  { train_id := "IC1",
    stops := [{ node := "Roma", arrival := 100, departure := 200, platform := some 1 }] }

def wTrainF : TrainSchedule :=
  { train_id := "IC2",
    stops := [{ node := "Roma", arrival := 150, departure := 250, platform := some 1 }] }

/-- The resolver's result on a one-conflict input it repairs with a
single 170-second delay move. -/
def wResolved2 : ResolutionResult :=
  match resolve_conflicts {} 0 wCfg [] [wTrainE, wTrainF] with
  | .ok r => r
  | .error _ =>
    { success := false, strategy_used := "", quality_score := 0,
      modified_trains := [], resolution_notes := [] }

/-- Witness for C1: the resolver repairs a one-conflict two-train input
by delaying one train, reports success, and the modified schedules
re-detect clean. -/
theorem resolve_conflicts_success_clean_witness :
    detect_conflicts {} wResolved2.modified_trains 0 = [] :=
  resolve_conflicts_success_clean {} 0 wCfg [] [wTrainE, wTrainF] wResolved2
    (by rfl) (by rfl)

/-- Witness for C7: the quality-score facts instantiated at the
conflict-free single-train run. -/
theorem resolve_conflicts_quality_witness :
    wResolved.quality_score = 1 / (1 + appliedCost wCfg wResolved.resolution_notes) ∧
      (appliedCost wCfg wResolved.resolution_notes = 0 → wResolved.quality_score = 1) ∧
      (detect_conflicts exampleNetwork [wTrainA] 120 = [] → wResolved.quality_score = 1) ∧
      ∀ c1 c2 : ℚ, 0 ≤ c1 → c1 < c2 → qualityScore c2 < qualityScore c1 :=
  resolve_conflicts_quality exampleNetwork 120 wCfg [] [wTrainA] wResolved
    (by rfl) (by rfl)

/-! ## Claim C4: the per-train delay bound

The loop invariant tracks, per train, the cumulative delay applied so
far: every stop of the working copy sits between its original time and
the original time plus that train's recorded cumulative delay, and every
recorded cumulative delay stays within the configured bound. -/

/-- A stop delayed by at most `d` seconds and never moved earlier, on the
same node. -/
def StopDelayedBy (d : Int) (o m : ScheduleStop) : Prop :=
  o.node = m.node ∧ o.arrival ≤ m.arrival ∧ m.arrival ≤ o.arrival + d ∧
    o.departure ≤ m.departure ∧ m.departure ≤ o.departure + d

def DelayInv (cfg : RailwayAIConfig) (orig ws : List TrainSchedule)
    (delays : List (String × Int)) : Prop :=
  (∀ tid, 0 ≤ lookupDelay delays tid ∧
      lookupDelay delays tid ≤ cfg.max_delay_minutes * 60) ∧
    List.Forall₂ (fun o m => o.train_id = m.train_id ∧
      List.Forall₂ (StopDelayedBy (lookupDelay delays o.train_id)) o.stops m.stops) orig ws

def DelayBounded (cfg : RailwayAIConfig) (orig ws : List TrainSchedule) : Prop :=
  List.Forall₂ (fun o m => o.train_id = m.train_id ∧
    List.Forall₂ (StopDelayedBy (cfg.max_delay_minutes * 60)) o.stops m.stops) orig ws

theorem lookupDelay_update_same : ∀ (delays : List (String × Int)) (tid : String) (d : Int),
    lookupDelay (updateDelay delays tid d) tid = lookupDelay delays tid + d := by
  intro delays
  induction delays with
  | nil =>
    intro tid d
    simp [updateDelay, lookupDelay]
  | cons p rest ih =>
    intro tid d
    obtain ⟨t, x⟩ := p
    by_cases ht : t = tid
    · subst ht
      simp [updateDelay, lookupDelay]
    · simp [updateDelay, lookupDelay, ht, ih]

theorem lookupDelay_update_other : ∀ (delays : List (String × Int)) (tid t2 : String)
    (d : Int), t2 ≠ tid →
    lookupDelay (updateDelay delays tid d) t2 = lookupDelay delays t2 := by
  intro delays
  induction delays with
  | nil =>
    intro tid t2 d hne
    have : tid ≠ t2 := fun h => hne h.symm
    simp [updateDelay, lookupDelay, this]
  | cons p rest ih =>
    intro tid t2 d hne
    obtain ⟨t, x⟩ := p
    by_cases ht : t = tid
    · subst ht
      have : t ≠ t2 := fun h => hne h.symm
      simp [updateDelay, lookupDelay, this]
    · by_cases ht2 : t = t2
      · simp [updateDelay, lookupDelay, ht, ht2, hne]
      · simp [updateDelay, lookupDelay, ht, ht2, ih tid t2 d hne]

theorem StopDelayedBy_mono {b b2 : Int} (h : b ≤ b2) {o m : ScheduleStop}
    (hs : StopDelayedBy b o m) : StopDelayedBy b2 o m := by
  obtain ⟨h1, h2, h3, h4, h5⟩ := hs
  exact ⟨h1, h2, by omega, h4, by omega⟩

theorem forall₂_shiftStopsFrom {b d : Int} (hd : 0 ≤ d) :
    ∀ (os ms : List ScheduleStop), List.Forall₂ (StopDelayedBy b) os ms →
      ∀ idx, List.Forall₂ (StopDelayedBy (b + d)) os (shiftStopsFrom d idx ms) := by
  intro os ms h
  induction h with
  | nil =>
    intro idx
    cases idx <;> exact List.Forall₂.nil
  | cons hs hrest ih =>
    intro idx
    cases idx with
    | zero =>
      refine List.Forall₂.cons ?_ (ih 0)
      obtain ⟨h1, h2, h3, h4, h5⟩ := hs
      refine ⟨h1, ?_, ?_, ?_, ?_⟩ <;> simp only [shiftStop] <;> omega
    | succ i =>
      exact List.Forall₂.cons (StopDelayedBy_mono (by omega) hs) (ih i)

theorem forall₂_setStopPlatform {b : Int} (p : Nat) :
    ∀ (os ms : List ScheduleStop), List.Forall₂ (StopDelayedBy b) os ms →
      ∀ idx, List.Forall₂ (StopDelayedBy b) os (setStopPlatform p idx ms) := by
  intro os ms h
  induction h with
  | nil =>
    intro idx
    cases idx <;> exact List.Forall₂.nil
  | cons hs hrest ih =>
    intro idx
    cases idx with
    | zero => exact List.Forall₂.cons hs hrest
    | succ i => exact List.Forall₂.cons hs (ih i)

theorem DelayInv_applyMove (cfg : RailwayAIConfig) (orig ws : List TrainSchedule)
    (delays : List (String × Int)) (m : Move)
    (hInv : DelayInv cfg orig ws delays) (hOk : moveWithinBound cfg delays m = true) :
    DelayInv cfg orig (applyMove ws m) (moveDelays delays m) := by
  obtain ⟨hB, hF⟩ := hInv
  cases m with
  | platformChange tid idx p =>
    refine ⟨hB, ?_⟩
    simp only [applyMove, moveDelays]
    rw [List.forall₂_map_right_iff]
    refine hF.imp ?_
    intro o w hw
    obtain ⟨hid, hstops⟩ := hw
    by_cases ht : w.train_id = tid
    · rw [if_pos ht]
      exact ⟨hid, forall₂_setStopPlatform p _ _ hstops idx⟩
    · rw [if_neg ht]
      exact ⟨hid, hstops⟩
  | delay tid idx d =>
    simp only [moveWithinBound, Bool.and_eq_true, decide_eq_true_eq] at hOk
    obtain ⟨hdpos, hdbound⟩ := hOk
    constructor
    · intro t2
      by_cases ht2 : t2 = tid
      · subst ht2
        simp only [moveDelays]
        rw [lookupDelay_update_same]
        have := (hB t2).1
        omega
      · simp only [moveDelays]
        rw [lookupDelay_update_other _ _ _ _ ht2]
        exact hB t2
    · simp only [applyMove, moveDelays]
      rw [List.forall₂_map_right_iff]
      refine hF.imp ?_
      intro o w hw
      obtain ⟨hid, hstops⟩ := hw
      by_cases ht : w.train_id = tid
      · rw [if_pos ht]
        refine ⟨hid, ?_⟩
        have hot : o.train_id = tid := hid.trans ht
        rw [hot, lookupDelay_update_same]
        exact forall₂_shiftStopsFrom (by omega) _ _ (hot ▸ hstops) idx
      · rw [if_neg ht]
        have hne : o.train_id ≠ tid := fun h => ht (hid.symm.trans h)
        rw [lookupDelay_update_other _ _ _ _ hne]
        exact ⟨hid, hstops⟩

theorem DelayInv_weaken (cfg : RailwayAIConfig) (orig ws : List TrainSchedule)
    (delays : List (String × Int)) (h : DelayInv cfg orig ws delays) :
    DelayBounded cfg orig ws := by
  obtain ⟨hB, hF⟩ := h
  refine hF.imp ?_
  intro o m hm
  obtain ⟨hid, hstops⟩ := hm
  exact ⟨hid, hstops.imp (fun _ _ hs => StopDelayedBy_mono (hB o.train_id).2 hs)⟩

theorem pickCheapest_mem (cfg : RailwayAIConfig) : ∀ (l : List Move) (m : Move),
    pickCheapest cfg l = some m → m ∈ l := by
  intro l
  induction l with
  | nil =>
    intro m h
    simp [pickCheapest] at h
  | cons a rest ih =>
    intro m h
    rw [pickCheapest] at h
    cases hp : pickCheapest cfg rest with
    | none =>
      simp only [hp] at h
      cases Option.some.inj h
      exact List.mem_cons_self a rest
    | some m2 =>
      simp only [hp] at h
      by_cases hc : cheaper cfg m2 a = true
      · rw [if_pos hc] at h
        cases Option.some.inj h
        exact List.mem_cons_of_mem a (ih _ hp)
      · rw [if_neg hc] at h
        cases Option.some.inj h
        exact List.mem_cons_self a rest

theorem chooseMove_withinBound (net : RailwayNetwork) (buffer : Int)
    (cfg : RailwayAIConfig) (delays : List (String × Int)) (ws : List TrainSchedule)
    (c : Conflict) (m : Move)
    (h : chooseMove net buffer cfg delays ws c = some m) :
    moveWithinBound cfg delays m = true := by
  unfold chooseMove at h
  have hmem := pickCheapest_mem cfg _ _ h
  rw [List.mem_filter, Bool.and_eq_true] at hmem
  exact hmem.2.1

theorem DelayInv_init (cfg : RailwayAIConfig) (schedules : List TrainSchedule)
    (hmax : 0 ≤ cfg.max_delay_minutes) :
    DelayInv cfg schedules schedules [] := by
  constructor
  · intro tid
    simp only [lookupDelay]
    omega
  · rw [List.forall₂_same]
    intro o _
    refine ⟨rfl, ?_⟩
    rw [List.forall₂_same]
    intro s _
    refine ⟨rfl, le_refl _, ?_, le_refl _, ?_⟩ <;> simp [lookupDelay]

theorem resolveLoop_delay_bounded (net : RailwayNetwork) (buffer : Int)
    (cfg : RailwayAIConfig) (orig : List TrainSchedule) :
    ∀ (fuel : Nat) (st : RState), DelayInv cfg orig st.work st.delays →
      DelayBounded cfg orig (resolveLoop net buffer cfg fuel st).modified_trains := by
  intro fuel
  induction fuel with
  | zero =>
    intro st hInv
    exact DelayInv_weaken cfg orig st.work st.delays hInv
  | succ fuel ih =>
    intro st hInv
    rw [resolveLoop]
    by_cases hdet : detect_conflicts net st.work buffer = []
    · rw [if_pos hdet]
      exact DelayInv_weaken cfg orig st.work st.delays hInv
    · rw [if_neg hdet]
      cases hcm : chooseMove net buffer cfg st.delays st.work
          (pickFrom (detect_conflicts net st.work buffer)) with
      | none =>
        exact DelayInv_weaken cfg orig st.work st.delays hInv
      | some m =>
        refine ih _ ?_
        exact DelayInv_applyMove cfg orig st.work st.delays m hInv
          (chooseMove_withinBound net buffer cfg st.delays st.work _ m hcm)

/-- C4: for every train of a successful resolution, each stop of the
modified schedule is never earlier than planned and at most
`max_delay_minutes` (in seconds) later — the cumulative delay the
resolver applies to a train never exceeds the configured per-train
bound. -/
theorem resolve_conflicts_delay_bounded (net : RailwayNetwork) (buffer : Int)
    (cfg : RailwayAIConfig) (conflicts : List Conflict)
    (schedules : List TrainSchedule) (r : ResolutionResult)
    (hok : resolve_conflicts net buffer cfg conflicts schedules = .ok r)
    (hs : r.success = true) :
    List.Forall₂ (fun o m => o.train_id = m.train_id ∧
      List.Forall₂ (StopDelayedBy (cfg.max_delay_minutes * 60)) o.stops m.stops)
      schedules r.modified_trains := by
  unfold resolve_conflicts at hok
  split at hok
  · exact absurd hok (by simp)
  · rename_i hneg
    have hmax : 0 ≤ cfg.max_delay_minutes := by omega
    have hr : r = resolveLoop net buffer cfg (iterationBudget conflicts)
        { work := schedules, delays := [], notes := [] } := (Except.ok.inj hok).symm
    subst hr
    exact resolveLoop_delay_bounded net buffer cfg schedules _ _
      (DelayInv_init cfg schedules hmax)

/-- Witness for C4: the delay bound instantiated at the successful run
that delays one train by 170 seconds. -/
theorem resolve_conflicts_delay_bounded_witness :
    List.Forall₂ (fun o m => o.train_id = m.train_id ∧
      List.Forall₂ (StopDelayedBy (wCfg.max_delay_minutes * 60)) o.stops m.stops)
      [wTrainE, wTrainF] wResolved2.modified_trains :=
  resolve_conflicts_delay_bounded {} 0 wCfg [] [wTrainE, wTrainF] wResolved2
    (by rfl) (by rfl)

end FDC
